import Mathlib

/-!
Shallow embedding of the dispatch-and-reputation engine of the
bitrecs-subnet validator (`src/template/base/validator.py`): response
arbitration (`select_top_result`), the API-path completion step of the
main loop (`run`), the EMA reputation update (`update_scores`), weight
normalization (`set_weights`), metagraph resync (`resync_metagraph`),
and peer selection.

Floating-point values are modelled by `FVal`: a finite value is an
exact rational, plus the IEEE special values `inf`, `ninf`, `nan`,
with IEEE propagation rules for the operations the code performs.
-/

namespace Bitrecs

/-- Model of an IEEE floating-point value: a finite value carries an exact
rational; `inf`, `ninf` and `nan` are the special values. -/
inductive FVal where
  | fin (q : ℚ)
  | inf
  | ninf
  | nan
deriving DecidableEq

namespace FVal

/-- `numpy.isnan` on one element. -/
def isNan : FVal → Bool
  | .nan => true
  | _ => false

/-- `numpy.isfinite` on one element. -/
def isFinite : FVal → Bool
  | .fin _ => true
  | _ => false

/-- IEEE equality (`==` in numpy): `nan` compares unequal to everything. -/
def feq : FVal → FVal → Bool
  | .fin a, .fin b => decide (a = b)
  | .inf, .inf => true
  | .ninf, .ninf => true
  | _, _ => false

/-- IEEE addition. -/
def fadd : FVal → FVal → FVal
  | .fin a, .fin b => .fin (a + b)
  | .fin _, .inf => .inf
  | .fin _, .ninf => .ninf
  | .inf, .fin _ => .inf
  | .inf, .inf => .inf
  | .inf, .ninf => .nan
  | .ninf, .fin _ => .ninf
  | .ninf, .inf => .nan
  | .ninf, .ninf => .ninf
  | .nan, _ => .nan
  | _, .nan => .nan

/-- IEEE multiplication (`0 * inf = nan`). -/
def fmul : FVal → FVal → FVal
  | .fin a, .fin b => .fin (a * b)
  | .fin a, .inf => if 0 < a then .inf else if a < 0 then .ninf else .nan
  | .fin a, .ninf => if 0 < a then .ninf else if a < 0 then .inf else .nan
  | .inf, .fin b => if 0 < b then .inf else if b < 0 then .ninf else .nan
  | .ninf, .fin b => if 0 < b then .ninf else if b < 0 then .inf else .nan
  | .inf, .inf => .inf
  | .inf, .ninf => .ninf
  | .ninf, .inf => .ninf
  | .ninf, .ninf => .inf
  | .nan, _ => .nan
  | _, .nan => .nan

/-- IEEE division (`x / 0` gives a signed infinity or `nan`,
`x / inf` gives `0`, `inf / inf = nan`); the sign of zero is not
tracked, so `fin 0` stands for both IEEE zeros. -/
def fdiv : FVal → FVal → FVal
  | .fin a, .fin b =>
      if b = 0 then (if a = 0 then .nan else if 0 < a then .inf else .ninf)
      else .fin (a / b)
  | .fin _, .inf => .fin 0
  | .fin _, .ninf => .fin 0
  | .inf, .fin b => if 0 ≤ b then .inf else .ninf
  | .ninf, .fin b => if 0 ≤ b then .ninf else .inf
  | .inf, .inf => .nan
  | .inf, .ninf => .nan
  | .ninf, .inf => .nan
  | .ninf, .ninf => .nan
  | .nan, _ => .nan
  | _, .nan => .nan

/-- IEEE absolute value. -/
def fabs : FVal → FVal
  | .fin a => .fin (abs a)
  | .inf => .inf
  | .ninf => .inf
  | .nan => .nan

/-- The largest finite IEEE double, as an exact rational. -/
def maxFloat : ℚ := (2 ^ 53 - 1) * 2 ^ 971

/-- `numpy.nan_to_num(x, nan=0)`: `nan` becomes `0`; the infinities keep
their numpy defaults and become the largest-magnitude finite values. -/
def nanToNum : FVal → FVal
  | .nan => .fin 0
  | .inf => .fin maxFloat
  | .ninf => .fin (-maxFloat)
  | .fin q => .fin q

/-- The rational carried by a finite value (`0` on the special values). -/
def toRat : FVal → ℚ
  | .fin q => q
  | _ => 0

end FVal

/-- The fields of the `BitrecsRequest` synapse that the arbitration logic
reads: the requested result count (`num_results`) and the result list
(`results`). The remaining protocol fields (query, context, user, ...) are
carried through the dispatch unchanged and never influence the control
flow modelled here. -/
structure BitrecsReq where
  num_results : ℕ
  results : List String
deriving DecidableEq

/-- `BaseValidatorNeuron.select_top_result` (validator.py lines 185–191):
scan the miner results in transport order and return the first whose
result-list length equals the originally requested count; `None`
(here `none`) when no result matches. -/
def select_top_result (original_request : BitrecsReq)
    (miner_results : List BitrecsReq) : Option BitrecsReq :=
  match miner_results with
  | [] => none
  | r :: rest =>
      if r.results.length = original_request.num_results then some r
      else select_top_result original_request rest

/-- Outcome of the API-path completion step of one `run` iteration:
`eventSet` records whether `synapse_with_event.event.set()` was reached,
`output` the value written into `synapse_with_event.output_synapse`
(`none` when the write was skipped). -/
structure ApiStepResult where
  eventSet : Bool
  output : Option BitrecsReq
deriving DecidableEq

/-- The arbitration-and-completion step of the API path of
`BaseValidatorNeuron.run` (validator.py lines 283–291): the dequeued
request is arbitrated with `select_top_result` over the miner responses;
on a winner the output synapse is written and the event set; on `None`
the code logs an error and executes `continue`, reaching neither the
output write nor `event.set()`. -/
def api_path_step (api_request : BitrecsReq)
    (responses : List BitrecsReq) : ApiStepResult :=
  match select_top_result api_request responses with
  | some r => { eventSet := true, output := some r }
  | none => { eventSet := false, output := none }

/-- The NaN-sanitization step at the top of `update_scores`
(validator.py lines 524–528): only when the rewards array contains at
least one NaN is `numpy.nan_to_num(rewards, nan=0)` applied to it;
otherwise the rewards pass through untouched. -/
def sanitizeRewards (rewards : List FVal) : List FVal :=
  if rewards.any FVal.isNan then rewards.map FVal.nanToNum else rewards

/-- The fancy-indexed assignment `scattered_rewards[uids_array] = rewards`
performed pairwise in order (duplicate uids: last write wins, as in
numpy); an out-of-range uid raises `IndexError`, modelled by `none`. -/
def scatterAux : List (ℕ × FVal) → List FVal → Option (List FVal)
  | [], acc => some acc
  | (u, r) :: rest, acc =>
      if u < acc.length then scatterAux rest (acc.set u r) else none

/-- `scattered_rewards = numpy.zeros_like(scores)` followed by
`scattered_rewards[uids_array] = rewards` (validator.py lines 556–557). -/
def scatter (n : ℕ) (uids : List ℕ) (rewards : List FVal) :
    Option (List FVal) :=
  scatterAux (uids.zip rewards) (List.replicate n (FVal.fin 0))

/-- `BaseValidatorNeuron.update_scores` (validator.py lines 521–566):
sanitize NaN rewards, return unchanged scores when rewards or uids are
empty, raise (`none`) on a size mismatch or an out-of-range uid, else
scatter the rewards into a zero vector and take the exponential moving
average `alpha * scattered + (1 - alpha) * scores` elementwise. -/
def update_scores (alpha : ℚ) (scores : List FVal)
    (rewards : List FVal) (uids : List ℕ) : Option (List FVal) :=
  let rs := sanitizeRewards rewards
  if rs.length = 0 ∨ uids.length = 0 then some scores
  else if rs.length ≠ uids.length then none
  else
    match scatter scores.length uids rs with
    | none => none
    | some scattered =>
        some (List.zipWith
          (fun r s => FVal.fadd (FVal.fmul (FVal.fin alpha) r)
                                (FVal.fmul (FVal.fin (1 - alpha)) s))
          scattered scores)

/-- `numpy.linalg.norm(scores, ord=1, axis=0, keepdims=True)` on the 1-D
score vector: the (scalar) sum of absolute values, accumulated left to
right. -/
def l1norm (scores : List FVal) : FVal :=
  (scores.map FVal.fabs).foldl FVal.fadd (FVal.fin 0)

/-- Outcome of `BaseValidatorNeuron.set_weights` up to the point where the
computation leaves the code under verification: `skipped` is the early
return at line 401 (taken before any weight shaping, quantization or
`subtensor.set_weights` submission); `emitted raw` means the raw weights
`raw` were computed and handed to the external
`process_weights_for_netuid` / `convert_weights_and_uids_for_emit` /
`subtensor.set_weights` chain. `set_weights` never assigns to
`self.scores`, so the score vector is unchanged in either case. -/
inductive SetWeightsOutcome where
  | skipped
  | emitted (raw : List FVal)
deriving DecidableEq

/-- `BaseValidatorNeuron.set_weights` (validator.py lines 383–415), the
raw-weight computation: return early when all scores compare equal to 0;
otherwise take the L1 norm, replace it by `numpy.ones_like(norm)` exactly
when it compares equal to 0 or is NaN, and divide the scores elementwise
by it. -/
def set_weights (scores : List FVal) : SetWeightsOutcome :=
  if scores.all (fun s => FVal.feq s (FVal.fin 0)) then .skipped
  else
    let norm := l1norm scores
    let norm := if FVal.feq norm (FVal.fin 0) || FVal.isNan norm
                then FVal.fin 1 else norm
    .emitted (scores.map (fun s => FVal.fdiv s norm))

/-- Sum of a list of modelled floats, accumulated left to right as numpy
does for a 1-D reduction. -/
def fsum (l : List FVal) : FVal := l.foldl FVal.fadd (FVal.fin 0)

/-- One metagraph entry as the resync logic observes it: the axon record
published for a uid slot. In bittensor an `AxonInfo` carries the neuron's
hotkey together with its network address, and `metagraph.hotkeys[uid]` is
that same hotkey, so comparing axon lists compares (hotkey, address)
pairs and the hotkey list is the projection of the axon list. -/
structure Worker where
  hotkey : ℕ
  addr : ℕ
deriving DecidableEq

/-- The hotkey list of a metagraph snapshot. -/
def hotkeysOf (meta : List Worker) : List ℕ := meta.map Worker.hotkey

/-- The zeroing loop of `resync_metagraph` (validator.py lines 505–507):
`for uid, hotkey in enumerate(self.hotkeys)`, compare against
`self.metagraph.hotkeys[uid]` — an `IndexError` (modelled by `.error`,
carrying the scores as mutated so far) when `uid` is past the end of the
new hotkey list — and on a mismatch assign `self.scores[uid] = 0`, which
itself raises when `uid` is past the end of the score vector. -/
def zeroReplaced : List ℕ → List ℕ → ℕ → List FVal →
    Except (List FVal) (List FVal)
  | [], _, _, scores => .ok scores
  | h :: rest, newHotkeys, uid, scores =>
      match newHotkeys[uid]? with
      | none => .error scores
      | some h2 =>
          if h = h2 then zeroReplaced rest newHotkeys (uid + 1) scores
          else if uid < scores.length then
            zeroReplaced rest newHotkeys (uid + 1) (scores.set uid (FVal.fin 0))
          else .error scores

/-- The growth branch of `resync_metagraph` (validator.py lines 511–516):
`new_moving_average = numpy.zeros(metagraph.n)` (length `n`), then
`new_moving_average[:min_len] = scores[:min_len]`. -/
def extendScores (n : ℕ) (minLen : ℕ) (scores : List FVal) : List FVal :=
  (List.range n).map
    (fun i => if i < minLen then scores.getD i (FVal.fin 0) else FVal.fin 0)

/-- `BaseValidatorNeuron.resync_metagraph` (validator.py lines 487–519)
after the external `metagraph.sync` returned the new snapshot `newMeta`:
return unchanged when the axon list is unchanged; otherwise zero the
score of every slot whose hotkey was replaced (raising `IndexError`,
modelled by `.error` with the scores as mutated at the raise, when the
saved hotkey list is longer than the new one), extend the score vector
with zeros when the hotkey list grew (`min_len` being the minimum of the
old hotkey-list and score-vector lengths), and store the new hotkeys.
The result is the pair (stored hotkeys, score vector). -/
def resync_metagraph (oldMeta : List Worker) (hotkeys : List ℕ)
    (scores : List FVal) (newMeta : List Worker) :
    Except (List FVal) (List ℕ × List FVal) :=
  if oldMeta = newMeta then .ok (hotkeys, scores)
  else
    match zeroReplaced hotkeys (hotkeysOf newMeta) 0 scores with
    | .error s => .error s
    | .ok s1 =>
        .ok (hotkeysOf newMeta,
          if hotkeys.length < (hotkeysOf newMeta).length
          then extendScores (hotkeysOf newMeta).length
                 (min hotkeys.length s1.length) s1
          else s1)

/-- The scores held in either outcome of `resync_metagraph` (the `.error`
side carries the vector as partially mutated at the raise). -/
def resyncScores : Except (List FVal) (List ℕ × List FVal) → List FVal
  | .ok (_, s) => s
  | .error s => s

/-- Modelled from the spec: `clamp` lives in `template/utils/uids.py`,
which is not under src/; the spec gives the dispatch sample size as
`clamp(1, 10, ·)`, a bound of its argument into the interval [min, max]. -/
def clamp (mn mx x : ℕ) : ℕ := max mn (min mx x)

/-- The peer-selection step of the API path of `BaseValidatorNeuron.run`
(validator.py lines 245–259): `random.sample(available_uids,
k=clamp(min=1, max=10, x=len(available_uids)))`. `available_uids` is the
value returned by `get_random_uids` (in `template/utils/uids.py`, not
under src/; per the spec it is a duplicate-free uniformly random draw of
`min(k, |available|)` available uids). Randomness is abstracted by taking
`available_uids` already in its sampled order, so `random.sample`
returns the first `clamp(...)` elements; when the requested sample size
exceeds the population size `random.sample` raises `ValueError`,
modelled by `none`. -/
def choose_uids (available_uids : List ℕ) : Option (List ℕ) :=
  let c := clamp 1 10 available_uids.length
  if c ≤ available_uids.length then some (available_uids.take c) else none

end Bitrecs

namespace Bitrecs

/-! Helper lemmas about the scatter step of `update_scores`. -/

theorem scatterAux_ok_length {ps : List (ℕ × FVal)} {acc out : List FVal}
    (h : scatterAux ps acc = some out) : out.length = acc.length := by
  induction ps generalizing acc with
  | nil =>
      rw [scatterAux] at h
      cases h
      rfl
  | cons p rest ih =>
      obtain ⟨u, r⟩ := p
      rw [scatterAux] at h
      split at h
      · have hlen := ih h
        simpa using hlen
      · cases h

theorem scatterAux_untouched {ps : List (ℕ × FVal)} {acc out : List FVal}
    (h : scatterAux ps acc = some out) {j : ℕ}
    (hj : ∀ p ∈ ps, p.1 ≠ j) : out[j]? = acc[j]? := by
  induction ps generalizing acc with
  | nil =>
      rw [scatterAux] at h
      cases h
      rfl
  | cons p rest ih =>
      obtain ⟨u, r⟩ := p
      rw [scatterAux] at h
      split at h
      · have hne : u ≠ j := hj (u, r) (by simp)
        have step : (acc.set u r)[j]? = acc[j]? := List.getElem?_set_ne hne
        rw [ih h (fun p hp => hj p (List.mem_cons_of_mem _ hp)), step]
      · cases h

theorem scatterAux_bounded_ok (ps : List (ℕ × FVal)) (acc : List FVal)
    (hb : ∀ p ∈ ps, p.1 < acc.length) :
    ∃ out, scatterAux ps acc = some out := by
  induction ps generalizing acc with
  | nil => exact ⟨acc, rfl⟩
  | cons p rest ih =>
      obtain ⟨u, r⟩ := p
      have hu : u < acc.length := hb (u, r) (by simp)
      obtain ⟨out, hout⟩ := ih (acc.set u r)
        (fun p hp => by
          have := hb p (List.mem_cons_of_mem _ hp)
          simpa using this)
      exact ⟨out, by rw [scatterAux, if_pos hu, hout]⟩

theorem scatterAux_hit {ps : List (ℕ × FVal)} {acc out : List FVal}
    (h : scatterAux ps acc = some out)
    (hnd : (ps.map Prod.fst).Nodup) :
    ∀ p ∈ ps, out[p.1]? = some p.2 := by
  induction ps generalizing acc with
  | nil => intro p hp; cases hp
  | cons q rest ih =>
      obtain ⟨u, r⟩ := q
      rw [scatterAux] at h
      split at h
      · rename_i hu
        intro p hp
        rcases List.mem_cons.mp hp with hpq | hprest
        · subst hpq
          have hnotin : ∀ p ∈ rest, p.1 ≠ u := by
            intro p hp
            have : u ∉ rest.map Prod.fst := by
              have := hnd
              simp only [List.map_cons, List.nodup_cons] at this
              exact this.1
            intro hcontra
            exact this (hcontra ▸ List.mem_map_of_mem Prod.fst hp)
          rw [scatterAux_untouched h hnotin]
          exact List.getElem?_set_self hu
        · have hnd' : (rest.map Prod.fst).Nodup := by
            simp only [List.map_cons, List.nodup_cons] at hnd
            exact hnd.2
          exact ih h hnd' p hprest
      · cases h

theorem scatterAux_mem {ps : List (ℕ × FVal)} {acc out : List FVal}
    (h : scatterAux ps acc = some out) :
    ∀ x ∈ out, x ∈ acc ∨ ∃ p ∈ ps, x = p.2 := by
  induction ps generalizing acc with
  | nil =>
      rw [scatterAux] at h
      cases h
      exact fun x hx => Or.inl hx
  | cons q rest ih =>
      obtain ⟨u, r⟩ := q
      rw [scatterAux] at h
      split at h
      · intro x hx
        rcases ih h x hx with hin | ⟨p, hp, hpx⟩
        · rcases List.mem_or_eq_of_mem_set hin with hacc | hr
          · exact Or.inl hacc
          · exact Or.inr ⟨(u, r), by simp, hr⟩
        · exact Or.inr ⟨p, List.mem_cons_of_mem _ hp, hpx⟩
      · cases h

/-! Helper lemmas about the zeroing loop and the growth branch of
`resync_metagraph`. -/

theorem zeroReplaced_len_ok {olds newHK : List ℕ} {uid : ℕ}
    {scores out : List FVal}
    (h : zeroReplaced olds newHK uid scores = .ok out) :
    out.length = scores.length := by
  induction olds generalizing uid scores with
  | nil =>
      rw [zeroReplaced] at h
      cases h
      rfl
  | cons hd rest ih =>
      rw [zeroReplaced] at h
      split at h
      · cases h
      · split at h
        · exact ih h
        · split at h
          · have := ih h
            simpa using this
          · cases h

theorem zeroReplaced_len_error {olds newHK : List ℕ} {uid : ℕ}
    {scores out : List FVal}
    (h : zeroReplaced olds newHK uid scores = .error out) :
    out.length = scores.length := by
  induction olds generalizing uid scores with
  | nil =>
      rw [zeroReplaced] at h
      cases h
  | cons hd rest ih =>
      rw [zeroReplaced] at h
      split at h
      · cases h
        rfl
      · split at h
        · exact ih h
        · split at h
          · have := ih h
            simpa using this
          · cases h
            rfl

theorem zeroReplaced_unchanged (olds : List ℕ) (newHK : List ℕ) (uid : ℕ)
    (scores : List FVal)
    (hbound : uid + olds.length ≤ newHK.length)
    (hsame : ∀ i, i < olds.length → olds.getD i 0 = newHK.getD (uid + i) 0) :
    zeroReplaced olds newHK uid scores = .ok scores := by
  induction olds generalizing uid with
  | nil => rfl
  | cons hd rest ih =>
      have huid : uid < newHK.length := by
        simp only [List.length_cons] at hbound
        omega
      rw [zeroReplaced]
      split
      · rename_i heq
        rw [List.getElem?_eq_getElem huid] at heq
        cases heq
      · rename_i h2 heq
        have hh2 : newHK[uid] = h2 := by
          rw [List.getElem?_eq_getElem huid] at heq
          exact Option.some.inj heq
        have hhd : hd = h2 := by
          have := hsame 0 (by simp)
          rw [List.getD_cons_zero, Nat.add_zero,
            List.getD_eq_getElem _ _ huid] at this
          exact this.trans hh2
        rw [if_pos hhd]
        apply ih
        · simp only [List.length_cons] at hbound
          omega
        · intro i hi
          have := hsame (i + 1) (by simpa using Nat.succ_lt_succ hi)
          rw [List.getD_cons_succ] at this
          rw [this]
          congr 1
          omega

theorem zeroReplaced_props (olds : List ℕ) (newHK : List ℕ) (uid : ℕ)
    (scores : List FVal)
    (hbound : uid + olds.length ≤ newHK.length)
    (hsc : ∀ i, i < olds.length → uid + i < scores.length) :
    ∃ out, zeroReplaced olds newHK uid scores = Except.ok out
      ∧ out.length = scores.length
      ∧ (∀ j, (j < uid ∨ uid + olds.length ≤ j) → out[j]? = scores[j]?)
      ∧ (∀ i, i < olds.length →
          out[uid + i]? = if olds.getD i 0 = newHK.getD (uid + i) 0
                          then scores[uid + i]? else some (FVal.fin 0)) := by
  induction olds generalizing uid scores with
  | nil =>
      exact ⟨scores, rfl, rfl, fun j _ => rfl,
        fun i hi => absurd hi (by simp)⟩
  | cons hd rest ih =>
      have huid : uid < newHK.length := by
        simp only [List.length_cons] at hbound
        omega
      have huidsc : uid < scores.length := by
        have := hsc 0 (by simp)
        simpa using this
      have hbound' : (uid + 1) + rest.length ≤ newHK.length := by
        simp only [List.length_cons] at hbound
        omega
      by_cases hh : hd = newHK[uid]
      · obtain ⟨out, hout, hlen, hunt, hmain⟩ := ih (uid + 1) scores hbound'
          (fun i hi => by
            have := hsc (i + 1) (by simpa using Nat.succ_lt_succ hi)
            omega)
        refine ⟨out, ?_, hlen, ?_, ?_⟩
        · rw [zeroReplaced]
          split
          · rename_i heq
            rw [List.getElem?_eq_getElem huid] at heq
            cases heq
          · rename_i h2 heq
            have hh2 : newHK[uid] = h2 := by
              rw [List.getElem?_eq_getElem huid] at heq
              exact Option.some.inj heq
            rw [if_pos (hh.trans hh2)]
            exact hout
        · intro j hj
          apply hunt
          rcases hj with hj | hj
          · exact Or.inl (by omega)
          · simp only [List.length_cons] at hj
            exact Or.inr (by omega)
        · intro i hi
          cases i with
          | zero =>
              have h1 : out[uid + 0]? = scores[uid + 0]? :=
                hunt (uid + 0) (Or.inl (by omega))
              have hcond : (hd :: rest).getD 0 0 = newHK.getD (uid + 0) 0 := by
                rw [List.getD_cons_zero, Nat.add_zero,
                  List.getD_eq_getElem _ _ huid]
                exact hh
              rw [if_pos hcond]
              exact h1
          | succ i' =>
              have hi' : i' < rest.length := by simpa using hi
              have heqidx : uid + (i' + 1) = (uid + 1) + i' := by omega
              rw [List.getD_cons_succ, heqidx]
              exact hmain i' hi'
      · obtain ⟨out, hout, hlen, hunt, hmain⟩ :=
          ih (uid + 1) (scores.set uid (FVal.fin 0)) hbound'
          (fun i hi => by
            have := hsc (i + 1) (by simpa using Nat.succ_lt_succ hi)
            simp only [List.length_set]
            omega)
        refine ⟨out, ?_, ?_, ?_, ?_⟩
        · rw [zeroReplaced]
          split
          · rename_i heq
            rw [List.getElem?_eq_getElem huid] at heq
            cases heq
          · rename_i h2 heq
            have hh2 : newHK[uid] = h2 := by
              rw [List.getElem?_eq_getElem huid] at heq
              exact Option.some.inj heq
            rw [if_neg (fun hcontra => hh (hcontra.trans hh2.symm))]
            rw [if_pos huidsc]
            exact hout
        · rw [hlen]
          simp
        · intro j hj
          have hne : uid ≠ j := by
            rcases hj with hj | hj
            · omega
            · simp only [List.length_cons] at hj
              omega
          have h1 : out[j]? = (scores.set uid (FVal.fin 0))[j]? := by
            apply hunt
            rcases hj with hj | hj
            · exact Or.inl (by omega)
            · simp only [List.length_cons] at hj
              exact Or.inr (by omega)
          rw [h1, List.getElem?_set_ne hne]
        · intro i hi
          cases i with
          | zero =>
              have h1 : out[uid + 0]? = (scores.set uid (FVal.fin 0))[uid + 0]? :=
                hunt (uid + 0) (Or.inl (by omega))
              have hcond : ¬ ((hd :: rest).getD 0 0 = newHK.getD (uid + 0) 0) := by
                rw [List.getD_cons_zero, Nat.add_zero,
                  List.getD_eq_getElem _ _ huid]
                exact hh
              rw [if_neg hcond, h1, Nat.add_zero,
                List.getElem?_set_self huidsc]
          | succ i' =>
              have hi' : i' < rest.length := by simpa using hi
              have heqidx : uid + (i' + 1) = (uid + 1) + i' := by omega
              have hne : uid ≠ (uid + 1) + i' := by omega
              rw [List.getD_cons_succ, heqidx, hmain i' hi',
                List.getElem?_set_ne hne]

theorem zeroReplaced_error_of_shrink (olds : List ℕ) (newHK : List ℕ)
    (uid : ℕ) (scores : List FVal)
    (hle : uid ≤ newHK.length)
    (hlong : newHK.length < uid + olds.length) :
    ∃ s, zeroReplaced olds newHK uid scores = .error s
      ∧ s.length = scores.length := by
  induction olds generalizing uid scores with
  | nil =>
      simp only [List.length_nil, Nat.add_zero] at hlong
      omega
  | cons hd rest ih =>
      by_cases huid : uid < newHK.length
      · rw [zeroReplaced]
        split
        · rename_i heq
          rw [List.getElem?_eq_getElem huid] at heq
          cases heq
        · rename_i h2 heq
          by_cases hh : hd = h2
          · rw [if_pos hh]
            apply ih
            · omega
            · simp only [List.length_cons] at hlong
              omega
          · rw [if_neg hh]
            by_cases hlt : uid < scores.length
            · rw [if_pos hlt]
              obtain ⟨s, hs, hslen⟩ := ih (uid + 1) (scores.set uid (FVal.fin 0))
                (by omega)
                (by simp only [List.length_cons] at hlong; omega)
              exact ⟨s, hs, by simpa using hslen⟩
            · rw [if_neg hlt]
              exact ⟨scores, rfl, rfl⟩
      · refine ⟨scores, ?_, rfl⟩
        rw [zeroReplaced]
        split
        · rfl
        · rename_i h2 heq
          rw [List.getElem?_eq_none (by omega)] at heq
          cases heq

theorem extendScores_length (n m : ℕ) (s : List FVal) :
    (extendScores n m s).length = n := by
  simp [extendScores]

theorem extendScores_getD (n m : ℕ) (s : List FVal) (i : ℕ) (hi : i < n)
    (d : FVal) :
    (extendScores n m s).getD i d
      = if i < m then s.getD i (FVal.fin 0) else FVal.fin 0 := by
  have hlen : i < (extendScores n m s).length := by
    rw [extendScores_length]
    exact hi
  rw [List.getD_eq_getElem _ _ hlen]
  simp only [extendScores, List.getElem_map, List.getElem_range]

theorem foldl_fadd_fin (l : List ℚ) (a : ℚ) :
    (l.map FVal.fin).foldl FVal.fadd (FVal.fin a) = FVal.fin (a + l.sum) := by
  induction l generalizing a with
  | nil => simp
  | cons q rest ih =>
      rw [List.map_cons, List.foldl_cons]
      show (rest.map FVal.fin).foldl FVal.fadd (FVal.fin (a + q)) = _
      rw [ih, List.sum_cons]
      congr 1
      ring

theorem l1norm_fin (scores : List FVal)
    (h : ∀ s ∈ scores, ∃ q : ℚ, s = FVal.fin q ∧ 0 ≤ q) :
    l1norm scores = FVal.fin ((scores.map FVal.toRat).sum) := by
  have hmap : scores.map FVal.fabs = (scores.map FVal.toRat).map FVal.fin := by
    rw [List.map_map]
    apply List.map_congr_left
    intro s hs
    obtain ⟨q, rfl, hq⟩ := h s hs
    simp [FVal.fabs, FVal.toRat, abs_of_nonneg hq]
  rw [l1norm, hmap, foldl_fadd_fin]
  norm_num

theorem sum_map_div (l : List ℚ) (c : ℚ) :
    (l.map (fun q => q / c)).sum = l.sum / c := by
  induction l with
  | nil => simp
  | cons q rest ih => simp [ih, add_div]

theorem zipWith_mem {α β γ : Type} (f : α → β → γ) (l1 : List α)
    (l2 : List β) : ∀ x ∈ List.zipWith f l1 l2,
    ∃ a ∈ l1, ∃ b ∈ l2, x = f a b := by
  induction l1 generalizing l2 with
  | nil => simp
  | cons a as ih =>
      cases l2 with
      | nil => simp
      | cons b bs =>
          intro x hx
          rw [List.zipWith_cons_cons] at hx
          rcases List.mem_cons.mp hx with h | h
          · exact ⟨a, by simp, b, by simp, h⟩
          · obtain ⟨a', ha, b', hb, hx'⟩ := ih bs x h
            exact ⟨a', List.mem_cons_of_mem _ ha,
                   b', List.mem_cons_of_mem _ hb, hx'⟩

/-- C2: `select_top_result` returns the first miner response whose
result-list length equals exactly the requested count, and `none` when no
response matches; with result counts [3,5,5] and a request for 5 it
returns the index-1 response, never the index-2 one. -/
theorem select_top_result_first_exact_count :
    (∀ (req : BitrecsReq) (rs : List BitrecsReq),
        select_top_result req rs
          = rs.find? (fun r => r.results.length == req.num_results))
    ∧ (select_top_result ⟨5, []⟩
         [⟨5, ["a", "b", "c"]⟩,
          ⟨5, ["a", "b", "c", "d", "e"]⟩,
          ⟨5, ["v", "w", "x", "y", "z"]⟩]
        = some ⟨5, ["a", "b", "c", "d", "e"]⟩)
    ∧ (⟨5, ["a", "b", "c", "d", "e"]⟩ : BitrecsReq)
        ≠ ⟨5, ["v", "w", "x", "y", "z"]⟩ := by
  refine ⟨?_, by decide, by decide⟩
  intro req rs
  induction rs with
  | nil => rfl
  | cons r rest ih =>
      by_cases h : r.results.length = req.num_results
      · simp [select_top_result, h, List.find?_cons_of_pos]
      · rw [select_top_result, if_neg h, List.find?_cons_of_neg, ih]
        simpa using h

/-- C1 (failing input): on the API path, when the arbiter finds no
acceptable response — here a request for 5 results against miner replies
with 3 and 4 results — the iteration takes the `continue` branch and the
completion event is never set, so the producer blocked in
`api_forward`'s `event.wait()` is left hanging, contrary to the spec's
"no result" sentinel requirement. -/
theorem api_path_no_winner_event_unset :
    (api_path_step ⟨5, []⟩
        [⟨5, ["a", "b", "c"]⟩, ⟨5, ["a", "b", "c", "d"]⟩]).eventSet = false
      ∧ (api_path_step ⟨5, []⟩
        [⟨5, ["a", "b", "c"]⟩, ⟨5, ["a", "b", "c", "d"]⟩]).output = none := by
  decide

/-- C3: for a non-empty reward batch at distinct in-range uids,
`update_scores` scatters the rewards into a zero vector (reward `r_i` at
index `u_i`, zero elsewhere) and sets the new score vector to
`alpha * scattered + (1 - alpha) * scores` elementwise. -/
theorem update_scores_ema (alpha : ℚ) (scores rewards : List FVal)
    (uids : List ℕ)
    (hnan : rewards.any FVal.isNan = false)
    (hne : rewards ≠ [])
    (hlen : rewards.length = uids.length)
    (hnd : uids.Nodup)
    (hrange : ∀ u ∈ uids, u < scores.length) :
    ∃ scattered, scatter scores.length uids rewards = some scattered
      ∧ scattered.length = scores.length
      ∧ (∀ i, i < uids.length →
          scattered.getD (uids.getD i 0) FVal.nan = rewards.getD i FVal.nan)
      ∧ (∀ j, j < scores.length → j ∉ uids →
          scattered.getD j FVal.nan = FVal.fin 0)
      ∧ update_scores alpha scores rewards uids
          = some (List.zipWith
              (fun r s => FVal.fadd (FVal.fmul (FVal.fin alpha) r)
                                    (FVal.fmul (FVal.fin (1 - alpha)) s))
              scattered scores) := by
  have hsan : sanitizeRewards rewards = rewards := by
    simp [sanitizeRewards, hnan]
  have hb : ∀ p ∈ uids.zip rewards,
      p.1 < (List.replicate scores.length (FVal.fin 0)).length := by
    intro p hp
    have := (List.of_mem_zip hp).1
    simpa using hrange _ this
  obtain ⟨sc, hscat⟩ := scatterAux_bounded_ok _ _ hb
  have hscatter : scatter scores.length uids rewards = some sc := hscat
  have hsclen : sc.length = scores.length := by
    simpa using scatterAux_ok_length hscat
  have hfst : (uids.zip rewards).map Prod.fst = uids :=
    List.map_fst_zip uids rewards (le_of_eq hlen.symm)
  refine ⟨sc, hscatter, hsclen, ?_, ?_, ?_⟩
  · intro i hi
    have hir : i < rewards.length := hlen ▸ hi
    have hzl : i < (uids.zip rewards).length := by
      simp [List.length_zip]
      omega
    have hpz : (uids.zip rewards)[i] = (uids[i], rewards[i]) :=
      List.getElem_zip
    have hmem : (uids.zip rewards)[i] ∈ uids.zip rewards :=
      List.getElem_mem hzl
    have hnd' : ((uids.zip rewards).map Prod.fst).Nodup := by
      rw [hfst]; exact hnd
    have hhit := scatterAux_hit hscat hnd' _ hmem
    rw [hpz] at hhit
    have hu : uids.getD i 0 = uids[i] := List.getD_eq_getElem uids 0 hi
    have hr : rewards.getD i FVal.nan = rewards[i] :=
      List.getD_eq_getElem rewards FVal.nan hir
    rw [hu, hr, List.getD_eq_getElem?_getD, hhit]
    rfl
  · intro j hj hnotin
    have huntouched : ∀ p ∈ uids.zip rewards, p.1 ≠ j := by
      intro p hp hcontra
      exact hnotin (hcontra ▸ (List.of_mem_zip hp).1)
    have h0 : (List.replicate scores.length (FVal.fin 0))[j]?
        = some (FVal.fin 0) := by
      rw [List.getElem?_eq_getElem (by simpa using hj)]
      simp
    rw [List.getD_eq_getElem?_getD, scatterAux_untouched hscat huntouched, h0]
    rfl
  · rw [update_scores]
    simp only [hsan]
    rw [if_neg (by
      push_neg
      refine ⟨by simpa using hne, ?_⟩
      rw [← hlen]
      simpa using hne),
      if_neg (not_not_intro hlen), hscatter]

/-- C3 witness: a single reward 1.0 for the worker at uid 0 with prior
score 0 and alpha = 0.2 yields a new score of exactly 0.2. -/
theorem update_scores_ema_witness :
    ([FVal.fin 1] ≠ ([] : List FVal))
    ∧ update_scores (1/5) [FVal.fin 0] [FVal.fin 1] [0]
        = some [FVal.fin (1/5)] := by
  refine ⟨by decide, ?_⟩
  obtain ⟨sc, hscatter, hsclen, hhit, hun, hupd⟩ :=
    update_scores_ema (1/5) [FVal.fin 0] [FVal.fin 1] [0]
      (by decide) (by decide) rfl (by decide) (by decide)
  have h2 : scatter [FVal.fin 0].length [0] [FVal.fin 1]
      = some [FVal.fin 1] := rfl
  have hsc' : sc = [FVal.fin 1] :=
    Option.some.inj (hscatter.symm.trans h2)
  rw [hsc'] at hupd
  rw [hupd]
  simp [FVal.fadd, FVal.fmul]

/-- C7: for reward batches with in-range uids and rewards in [0,1],
`update_scores` keeps the score-vector length and, when the prior scores
are finite and non-negative and alpha lies in (0,1], every updated entry
stays finite and non-negative. -/
theorem update_scores_invariant (alpha : ℚ) (scores rewards : List FVal)
    (uids : List ℕ)
    (halpha0 : 0 < alpha) (halpha1 : alpha ≤ 1)
    (hsc : ∀ s ∈ scores, ∃ q : ℚ, s = FVal.fin q ∧ 0 ≤ q)
    (hrw : ∀ r ∈ rewards, ∃ q : ℚ, r = FVal.fin q ∧ 0 ≤ q ∧ q ≤ 1)
    (hlen : rewards.length = uids.length)
    (hrange : ∀ u ∈ uids, u < scores.length) :
    ∃ out, update_scores alpha scores rewards uids = some out
      ∧ out.length = scores.length
      ∧ ∀ x ∈ out, ∃ q : ℚ, x = FVal.fin q ∧ 0 ≤ q := by
  have hnan : rewards.any FVal.isNan = false := by
    rw [List.any_eq_false]
    intro r hr
    obtain ⟨q, rfl, _⟩ := hrw r hr
    simp [FVal.isNan]
  have hsan : sanitizeRewards rewards = rewards := by
    simp [sanitizeRewards, hnan]
  by_cases hemp : rewards.length = 0 ∨ uids.length = 0
  · refine ⟨scores, ?_, rfl, hsc⟩
    rw [update_scores]
    simp only [hsan]
    rw [if_pos hemp]
  · have hb : ∀ p ∈ uids.zip rewards,
        p.1 < (List.replicate scores.length (FVal.fin 0)).length := by
      intro p hp
      have := (List.of_mem_zip hp).1
      simpa using hrange _ this
    obtain ⟨sc, hscat⟩ := scatterAux_bounded_ok _ _ hb
    have hscatter : scatter scores.length uids rewards = some sc := hscat
    have hsclen : sc.length = scores.length := by
      simpa using scatterAux_ok_length hscat
    refine ⟨List.zipWith
        (fun r s => FVal.fadd (FVal.fmul (FVal.fin alpha) r)
                              (FVal.fmul (FVal.fin (1 - alpha)) s))
        sc scores, ?_, ?_, ?_⟩
    · rw [update_scores]
      simp only [hsan]
      rw [if_neg hemp, if_neg (not_not_intro hlen), hscatter]
    · rw [List.length_zipWith, hsclen, min_self]
    · intro x hx
      obtain ⟨a, ha, b, hb', hxe⟩ := zipWith_mem _ _ _ x hx
      have haq : ∃ q : ℚ, a = FVal.fin q ∧ 0 ≤ q := by
        rcases scatterAux_mem hscat a ha with hrep | ⟨p, hp, hpa⟩
        · exact ⟨0, List.eq_of_mem_replicate hrep, le_refl 0⟩
        · obtain ⟨q, heq, hq0, _⟩ := hrw p.2 (List.of_mem_zip hp).2
          exact ⟨q, hpa ▸ heq, hq0⟩
      obtain ⟨qa, rfl, hqa⟩ := haq
      obtain ⟨qb, rfl, hqb⟩ := hsc b hb'
      refine ⟨alpha * qa + (1 - alpha) * qb, hxe ▸ rfl, ?_⟩
      have h1 : (0:ℚ) ≤ alpha * qa := mul_nonneg halpha0.le hqa
      have h2 : (0:ℚ) ≤ (1 - alpha) * qb :=
        mul_nonneg (by linarith) hqb
      linarith

/-- C7 witness: the invariant at a concrete batch (alpha 1/2, one reward
1.0 at uid 0 over a single zero prior score). -/
theorem update_scores_invariant_witness :
    (0:ℚ) < 1/2
    ∧ ∃ out, update_scores (1/2) [FVal.fin 0] [FVal.fin 1] [0] = some out
        ∧ out.length = 1
        ∧ ∀ x ∈ out, ∃ q : ℚ, x = FVal.fin q ∧ 0 ≤ q := by
  refine ⟨by norm_num, ?_⟩
  exact update_scores_invariant (1/2) [FVal.fin 0] [FVal.fin 1] [0]
    (by norm_num) (by norm_num)
    (by
      intro s hs
      simp only [List.mem_singleton] at hs
      exact ⟨0, hs, le_refl 0⟩)
    (by
      intro r hr
      simp only [List.mem_singleton] at hr
      exact ⟨1, hr, by norm_num, by norm_num⟩)
    rfl (by decide)

/-- C5: on an entirely zero score vector, `set_weights` takes the early
return before any weight shaping, quantization or
`subtensor.set_weights` submission (`skipped`), and it performs no
assignment to the score vector. -/
theorem set_weights_all_zero_skips (scores : List FVal)
    (h : ∀ s ∈ scores, s = FVal.fin 0) :
    set_weights scores = SetWeightsOutcome.skipped := by
  rw [set_weights, if_pos]
  rw [List.all_eq_true]
  intro s hs
  rw [h s hs]
  simp [FVal.feq]

/-- C5 witness: a concrete all-zero score vector is skipped. -/
theorem set_weights_all_zero_skips_witness :
    (∀ s ∈ [FVal.fin 0, FVal.fin 0], s = FVal.fin 0)
    ∧ set_weights [FVal.fin 0, FVal.fin 0] = SetWeightsOutcome.skipped :=
  ⟨by decide, set_weights_all_zero_skips [FVal.fin 0, FVal.fin 0] (by decide)⟩

/-- C8 (counterexample): an infinite reward is not replaced by 0 — the
sanitization step only fires on NaN (`numpy.isnan`), so a batch holding
`+inf` passes through unchanged and the value entering the scatter and
EMA is non-finite: with alpha 0.2 and a zero prior score the updated
score is `+inf`. -/
theorem infinite_reward_not_sanitized :
    sanitizeRewards [FVal.inf] = [FVal.inf]
    ∧ FVal.isFinite FVal.inf = false
    ∧ update_scores (1/5) [FVal.fin 0] [FVal.inf] [0] = some [FVal.inf] := by
  refine ⟨by decide, by decide, ?_⟩
  simp [update_scores, sanitizeRewards, scatter, scatterAux,
    FVal.fadd, FVal.fmul, FVal.isNan]

/-- C8 (amended): every NaN entry of the reward batch is replaced by 0
before it is scattered into the score update (infinite entries are not
replaced by 0). -/
theorem sanitize_nan_to_zero (rewards : List FVal) (i : ℕ)
    (hi : i < rewards.length)
    (h : (rewards.getD i FVal.nan).isNan = true) :
    (sanitizeRewards rewards).getD i FVal.nan = FVal.fin 0 := by
  have hget : rewards.getD i FVal.nan = rewards[i] :=
    List.getD_eq_getElem rewards FVal.nan hi
  rw [hget] at h
  have hnan : rewards[i] = FVal.nan := by
    cases hx : rewards[i] <;> rw [hx] at h <;>
      first | rfl | simp [FVal.isNan] at h
  have hany : rewards.any FVal.isNan = true := by
    rw [List.any_eq_true]
    exact ⟨rewards[i], List.getElem_mem hi, by rw [hnan]; rfl⟩
  rw [sanitizeRewards, if_pos hany]
  have hlen : i < (rewards.map FVal.nanToNum).length := by simpa using hi
  rw [List.getD_eq_getElem _ _ hlen, List.getElem_map, hnan]
  rfl

/-- C8 amended witness: a concrete NaN reward is sanitized to 0. -/
theorem sanitize_nan_to_zero_witness :
    (0 : ℕ) < [FVal.nan].length
    ∧ (sanitizeRewards [FVal.nan]).getD 0 FVal.nan = FVal.fin 0 :=
  ⟨by decide, sanitize_nan_to_zero [FVal.nan] 0 (by decide) (by decide)⟩

/-- C9: with no available worker, `clamp(1, 10, 0) = 1` forces a sample
size of 1 from an empty population, so `random.sample` raises
`ValueError` (modelled by `none`) instead of returning an empty set;
with 7 available workers (e.g. `min(k=20, a=7)`), selection succeeds and
returns exactly `clamp(1,10,7) = 7` distinct uids. -/
theorem choose_uids_empty_raises :
    clamp 1 10 0 = 1
    ∧ choose_uids [] = none
    ∧ choose_uids [3, 1, 4, 15, 9, 2, 6] = some [3, 1, 4, 15, 9, 2, 6]
    ∧ (7 : ℕ) = clamp 1 10 (min 20 7)
    ∧ [3, 1, 4, 15, 9, 2, 6].Nodup := by
  decide

/-- C4 (counterexample): an infinite (non-finite) L1 norm is not
substituted by the unit vector — the guard checks only for a zero or NaN
norm — so the division proceeds against `inf` and yields `nan`, not
the `scores / 1` that substitution would give. -/
theorem set_weights_inf_norm_no_substitution :
    FVal.isFinite (l1norm [FVal.inf]) = false
    ∧ FVal.feq (l1norm [FVal.inf]) (FVal.fin 0) = false
    ∧ set_weights [FVal.inf] = SetWeightsOutcome.emitted [FVal.nan]
    ∧ SetWeightsOutcome.emitted [FVal.nan]
        ≠ SetWeightsOutcome.emitted
            ([FVal.inf].map (fun s => FVal.fdiv s (FVal.fin 1))) := by
  decide

/-- C4 (amended): for a non-zero, finite, non-negative score vector the
raw weights are the scores divided elementwise by the L1 norm and sum to
exactly 1; the unit-vector substitution for the norm happens exactly
when the norm compares equal to 0 or is NaN (an infinite norm is not
substituted). -/
theorem set_weights_l1_normalized :
    (∀ scores : List FVal,
        (∀ s ∈ scores, ∃ q : ℚ, s = FVal.fin q ∧ 0 ≤ q) →
        ¬ (∀ s ∈ scores, s = FVal.fin 0) →
        ∃ w, set_weights scores = SetWeightsOutcome.emitted w
          ∧ fsum w = FVal.fin 1)
    ∧ (∀ scores : List FVal,
        scores.all (fun s => FVal.feq s (FVal.fin 0)) = false →
        (FVal.feq (l1norm scores) (FVal.fin 0)
          || FVal.isNan (l1norm scores)) = true →
        set_weights scores
          = SetWeightsOutcome.emitted
              (scores.map (fun s => FVal.fdiv s (FVal.fin 1)))) := by
  constructor
  · intro scores hfin hnz
    have hallzero : scores.all (fun s => FVal.feq s (FVal.fin 0)) = false := by
      by_contra hc
      rw [Bool.not_eq_false, List.all_eq_true] at hc
      apply hnz
      intro s hs
      obtain ⟨q, rfl, _⟩ := hfin s hs
      have hq := hc (FVal.fin q) hs
      simp only [FVal.feq, decide_eq_true_eq] at hq
      rw [hq]
    have hnorm : l1norm scores = FVal.fin ((scores.map FVal.toRat).sum) :=
      l1norm_fin scores hfin
    have hex : ∃ s ∈ scores, ¬ (s = FVal.fin 0) := by
      by_contra hc
      push_neg at hc
      exact hnz hc
    obtain ⟨s, hs, hsne⟩ := hex
    obtain ⟨q, rfl, hq0⟩ := hfin s hs
    have hqpos : 0 < q := by
      rcases lt_or_eq_of_le hq0 with h | h
      · exact h
      · exact absurd (by rw [← h]) hsne
    have hmem : q ∈ scores.map FVal.toRat :=
      List.mem_map.mpr ⟨FVal.fin q, hs, rfl⟩
    have hnonneg : ∀ x ∈ scores.map FVal.toRat, 0 ≤ x := by
      intro x hx
      obtain ⟨s', hs', rfl⟩ := List.mem_map.mp hx
      obtain ⟨q', heq, hq'⟩ := hfin s' hs'
      rw [heq]
      simpa [FVal.toRat] using hq'
    have hSpos : 0 < (scores.map FVal.toRat).sum :=
      lt_of_lt_of_le hqpos (List.single_le_sum hnonneg q hmem)
    have hSne : (scores.map FVal.toRat).sum ≠ 0 := ne_of_gt hSpos
    have hguard : (FVal.feq (l1norm scores) (FVal.fin 0)
        || FVal.isNan (l1norm scores)) = false := by
      rw [hnorm]
      simp [FVal.feq, FVal.isNan, hSne]
    refine ⟨scores.map
        (fun s => FVal.fdiv s (FVal.fin ((scores.map FVal.toRat).sum))),
        ?_, ?_⟩
    · rw [set_weights]
      simp only [hallzero, Bool.false_eq_true, if_false, hguard]
      rw [hnorm]
    · have hdiv : scores.map
          (fun s => FVal.fdiv s (FVal.fin ((scores.map FVal.toRat).sum)))
          = ((scores.map FVal.toRat).map
              (fun q => q / (scores.map FVal.toRat).sum)).map FVal.fin := by
        rw [List.map_map, List.map_map]
        apply List.map_congr_left
        intro s' hs'
        obtain ⟨q', rfl, _⟩ := hfin s' hs'
        simp [FVal.fdiv, FVal.toRat, hSne, Function.comp]
      rw [fsum, hdiv, foldl_fadd_fin, sum_map_div, zero_add,
        div_self hSne]
  · intro scores hnz hguard
    rw [set_weights]
    simp only [hnz, Bool.false_eq_true, if_false, hguard, if_true]

/-- C6: on resync, an unchanged worker-identity (hotkey) ordering leaves
every score untouched; otherwise (under the maintained invariants that
the stored hotkeys mirror the previous metagraph and the score vector
matches them in length, with no shrink) each slot whose hotkey changed is
reset to 0, each unchanged slot keeps its value, and on growth the vector
is extended to the new length with zeros in the new slots. -/
theorem resync_scores_tracking :
    ∀ (oldMeta newMeta : List Worker) (hotkeys : List ℕ)
      (scores : List FVal),
    (hotkeys = hotkeysOf newMeta →
       resync_metagraph oldMeta hotkeys scores newMeta
         = .ok (hotkeys, scores))
    ∧ (hotkeys = hotkeysOf oldMeta →
       scores.length = hotkeys.length →
       hotkeys.length ≤ newMeta.length →
       ∃ s2, resync_metagraph oldMeta hotkeys scores newMeta
              = .ok (hotkeysOf newMeta, s2)
         ∧ s2.length = newMeta.length
         ∧ (∀ i, i < hotkeys.length →
             hotkeys.getD i 0 ≠ (hotkeysOf newMeta).getD i 0 →
             s2.getD i FVal.nan = FVal.fin 0)
         ∧ (∀ i, i < hotkeys.length →
             hotkeys.getD i 0 = (hotkeysOf newMeta).getD i 0 →
             s2.getD i FVal.nan = scores.getD i FVal.nan)
         ∧ (∀ i, hotkeys.length ≤ i → i < newMeta.length →
             s2.getD i FVal.nan = FVal.fin 0)) := by
  intro oldMeta newMeta hotkeys scores
  constructor
  · intro hhk
    by_cases heq : oldMeta = newMeta
    · rw [resync_metagraph, if_pos heq]
    · have hlen2 : hotkeys.length = (hotkeysOf newMeta).length := by
        rw [hhk]
      have hzr : zeroReplaced hotkeys (hotkeysOf newMeta) 0 scores
          = .ok scores :=
        zeroReplaced_unchanged _ _ _ _ (by omega)
          (fun i hi => by rw [hhk, Nat.zero_add])
      rw [resync_metagraph, if_neg heq]
      split
      · rename_i s hs
        rw [hzr] at hs
        cases hs
      · rename_i s1 hs1
        rw [hzr] at hs1
        cases hs1
        rw [if_neg (by omega), ← hhk]
  · intro hhk hslen hgrow
    have hnmlen : (hotkeysOf newMeta).length = newMeta.length := by
      simp [hotkeysOf]
    by_cases heq : oldMeta = newMeta
    · have hkeq : hotkeys = hotkeysOf newMeta := by rw [hhk, heq]
      refine ⟨scores, ?_, ?_, ?_, ?_, ?_⟩
      · rw [resync_metagraph, if_pos heq, hkeq]
      · rw [hslen, hkeq, hnmlen]
      · intro i hi hne
        exact absurd (by rw [hkeq]) hne
      · intro i hi hsame
        rfl
      · intro i hlow hhigh
        have : hotkeys.length = newMeta.length := by rw [hkeq, hnmlen]
        omega
    · have hbound : 0 + hotkeys.length ≤ (hotkeysOf newMeta).length := by
        omega
      obtain ⟨s1, hs1, hs1len, hunt, hmain⟩ :=
        zeroReplaced_props hotkeys (hotkeysOf newMeta) 0 scores hbound
          (fun i hi => by omega)
      have hslot : ∀ i, i < hotkeys.length →
          s1.getD i FVal.nan
            = (if hotkeys.getD i 0 = (hotkeysOf newMeta).getD i 0
               then scores.getD i FVal.nan else FVal.fin 0) := by
        intro i hi
        have h := hmain i hi
        rw [Nat.zero_add] at h
        rw [List.getD_eq_getElem?_getD, h]
        split
        · exact (List.getD_eq_getElem?_getD _ _ _).symm
        · rfl
      rcases Nat.lt_or_ge hotkeys.length (hotkeysOf newMeta).length
        with hg | hg
      · have hmin : min hotkeys.length s1.length = hotkeys.length := by
          rw [hs1len, hslen]
          exact min_self _
        have hswap : ∀ i, i < hotkeys.length →
            s1.getD i (FVal.fin 0) = s1.getD i FVal.nan := by
          intro i hi
          have hilen : i < s1.length := by omega
          rw [List.getD_eq_getElem _ _ hilen, List.getD_eq_getElem _ _ hilen]
        refine ⟨extendScores (hotkeysOf newMeta).length
            (min hotkeys.length s1.length) s1, ?_, ?_, ?_, ?_, ?_⟩
        · rw [resync_metagraph, if_neg heq]
          split
          · rename_i s hs
            rw [hs1] at hs
            cases hs
          · rename_i s1' hs1'
            rw [hs1] at hs1'
            cases hs1'
            rw [if_pos hg]
        · rw [extendScores_length, hnmlen]
        · intro i hi hne
          rw [extendScores_getD _ _ _ i (by omega) FVal.nan, hmin,
            if_pos hi, hswap i hi, hslot i hi, if_neg hne]
        · intro i hi hsame
          rw [extendScores_getD _ _ _ i (by omega) FVal.nan, hmin,
            if_pos hi, hswap i hi, hslot i hi, if_pos hsame]
        · intro i hlow hhigh
          rw [extendScores_getD _ _ _ i (by omega) FVal.nan, hmin,
            if_neg (by omega)]
      · have heqlen : hotkeys.length = (hotkeysOf newMeta).length := by
          omega
        refine ⟨s1, ?_, ?_, ?_, ?_, ?_⟩
        · rw [resync_metagraph, if_neg heq]
          split
          · rename_i s hs
            rw [hs1] at hs
            cases hs
          · rename_i s1' hs1'
            rw [hs1] at hs1'
            cases hs1'
            rw [if_neg (by omega)]
        · rw [hs1len, hslen, heqlen, hnmlen]
        · intro i hi hne
          rw [hslot i hi, if_neg hne]
        · intro i hi hsame
          rw [hslot i hi, if_pos hsame]
        · intro i hlow hhigh
          have : hotkeys.length = newMeta.length := heqlen.trans hnmlen
          omega

/-- C6 witness: membership of 4 with the hotkey at slot 2 replaced and
growth to 6: slot 2 is reset, slots 0,1,3 are preserved, slots 4 and 5
start at zero, and the vector has length 6. -/
theorem resync_scores_tracking_witness :
    ∃ s2, resync_metagraph
        [⟨1, 1⟩, ⟨2, 2⟩, ⟨3, 3⟩, ⟨4, 4⟩] [1, 2, 3, 4]
        [FVal.fin 1, FVal.fin 2, FVal.fin 3, FVal.fin 4]
        [⟨1, 1⟩, ⟨2, 2⟩, ⟨9, 3⟩, ⟨4, 4⟩, ⟨5, 5⟩, ⟨6, 6⟩]
        = .ok (hotkeysOf [⟨1, 1⟩, ⟨2, 2⟩, ⟨9, 3⟩, ⟨4, 4⟩, ⟨5, 5⟩, ⟨6, 6⟩], s2)
      ∧ s2.length = 6
      ∧ (∀ i, i < 4 →
          [1, 2, 3, 4].getD i 0
              ≠ (hotkeysOf [⟨1, 1⟩, ⟨2, 2⟩, ⟨9, 3⟩, ⟨4, 4⟩, ⟨5, 5⟩, ⟨6, 6⟩]).getD i 0 →
          s2.getD i FVal.nan = FVal.fin 0)
      ∧ (∀ i, i < 4 →
          [1, 2, 3, 4].getD i 0
              = (hotkeysOf [⟨1, 1⟩, ⟨2, 2⟩, ⟨9, 3⟩, ⟨4, 4⟩, ⟨5, 5⟩, ⟨6, 6⟩]).getD i 0 →
          s2.getD i FVal.nan
            = [FVal.fin 1, FVal.fin 2, FVal.fin 3, FVal.fin 4].getD i FVal.nan)
      ∧ (∀ i, 4 ≤ i → i < 6 → s2.getD i FVal.nan = FVal.fin 0) :=
  (resync_scores_tracking
    [⟨1, 1⟩, ⟨2, 2⟩, ⟨3, 3⟩, ⟨4, 4⟩]
    [⟨1, 1⟩, ⟨2, 2⟩, ⟨9, 3⟩, ⟨4, 4⟩, ⟨5, 5⟩, ⟨6, 6⟩]
    [1, 2, 3, 4]
    [FVal.fin 1, FVal.fin 2, FVal.fin 3, FVal.fin 4]).2
    (by decide) (by decide) (by decide)

/-- C10: when membership shrinks (the stored hotkey list is longer than
the new one) and the axon list changed, `resync_metagraph` raises
`IndexError` while comparing a hotkey past the new list's end (the
`.error` outcome) instead of truncating; and whatever the outcome, the
score vector is never shortened by a resync. -/
theorem resync_shrink_raises :
    (∀ (oldMeta newMeta : List Worker) (hotkeys : List ℕ)
        (scores : List FVal),
        oldMeta ≠ newMeta →
        newMeta.length < hotkeys.length →
        ∃ s, resync_metagraph oldMeta hotkeys scores newMeta = .error s
          ∧ s.length = scores.length)
    ∧ (∀ (oldMeta newMeta : List Worker) (hotkeys : List ℕ)
        (scores : List FVal),
        scores.length = hotkeys.length →
        scores.length ≤ (resyncScores
            (resync_metagraph oldMeta hotkeys scores newMeta)).length) := by
  constructor
  · intro oldMeta newMeta hotkeys scores hax hsh
    have hnm : (hotkeysOf newMeta).length = newMeta.length := by
      simp [hotkeysOf]
    obtain ⟨s, hs, hslen⟩ := zeroReplaced_error_of_shrink hotkeys
      (hotkeysOf newMeta) 0 scores (by omega) (by omega)
    refine ⟨s, ?_, hslen⟩
    rw [resync_metagraph, if_neg hax]
    split
    · rename_i s' hs'
      have := Except.error.inj (hs.symm.trans hs')
      rw [← this]
    · rename_i s1 hs1
      rw [hs] at hs1
      cases hs1
  · intro oldMeta newMeta hotkeys scores hslen
    by_cases heq : oldMeta = newMeta
    · rw [resync_metagraph, if_pos heq]
      exact Nat.le_refl _
    · rw [resync_metagraph, if_neg heq]
      split
      · rename_i s hs
        have := zeroReplaced_len_error hs
        simp only [resyncScores]
        omega
      · rename_i s1 hs1
        have hl1 := zeroReplaced_len_ok hs1
        simp only [resyncScores]
        split
        · rename_i hg
          rw [extendScores_length]
          omega
        · omega

/-- C10 witness: a concrete shrink from 3 to 2 members raises with the
score vector intact. -/
theorem resync_shrink_raises_witness :
    ([⟨1, 1⟩, ⟨2, 2⟩, ⟨3, 3⟩] : List Worker) ≠ [⟨1, 1⟩, ⟨2, 2⟩]
    ∧ ∃ s, resync_metagraph [⟨1, 1⟩, ⟨2, 2⟩, ⟨3, 3⟩] [1, 2, 3]
        [FVal.fin 1, FVal.fin 2, FVal.fin 3] [⟨1, 1⟩, ⟨2, 2⟩]
        = .error s
      ∧ s.length = 3 :=
  ⟨by decide, resync_shrink_raises.1
    [⟨1, 1⟩, ⟨2, 2⟩, ⟨3, 3⟩] [⟨1, 1⟩, ⟨2, 2⟩] [1, 2, 3]
    [FVal.fin 1, FVal.fin 2, FVal.fin 3] (by decide) (by decide)⟩

/-- C4 amended witness: scores [1, 3] give raw weights summing to
exactly 1. -/
theorem set_weights_l1_normalized_witness :
    (¬ (∀ s ∈ [FVal.fin 1, FVal.fin 3], s = FVal.fin 0))
    ∧ ∃ w, set_weights [FVal.fin 1, FVal.fin 3]
        = SetWeightsOutcome.emitted w ∧ fsum w = FVal.fin 1 := by
  refine ⟨by decide, set_weights_l1_normalized.1 [FVal.fin 1, FVal.fin 3]
    ?_ (by decide)⟩
  intro s hs
  simp only [List.mem_cons, List.not_mem_nil, or_false] at hs
  rcases hs with rfl | rfl
  · exact ⟨1, rfl, by norm_num⟩
  · exact ⟨3, rfl, by norm_num⟩

end Bitrecs
